import Mathlib

/-!
Verification of the streetwarp core pipeline (a shallow embedding of the Rust
sources `src/optim.rs` and `src/main.rs`).

Machine floats (`f64`) are embedded as exact rationals `ℚ`; the claims settled
here are structural (ordering, grouping, index bounds, argmin stability) and
hold over any linearly ordered field, so the embedding is faithful for them.
External geodesic primitives from the `geo` crate (`geodesic_distance`,
`bearing`, `haversine_intermediate`) are abstract function parameters, since
the repository only calls them.  Rust panics are embedded as `Option.none`.
-/

namespace Streetwarp

/-- Rust's `Iterator::min_by` restricted to a key function: returns the
element with the least key, keeping the earliest one on ties (Rust's `min_by`
keeps the accumulator unless the new element is strictly smaller). -/
def minByKey (f : α → ℚ) : List α → Option α
  | [] => none
  | x :: xs => some (xs.foldl (fun acc c => if f c < f acc then c else acc) x)

theorem minByKey_decomp (f : α → ℚ) (l : List α) (m : α) (h : minByKey f l = some m) :
    ∃ l₁ l₂, l = l₁ ++ m :: l₂ ∧ (∀ y ∈ l₁, f m < f y) ∧ (∀ y ∈ l₂, f m ≤ f y) := by
  match l with
  | [] => simp [minByKey] at h
  | x :: xs =>
    simp only [minByKey, Option.some.injEq] at h
    induction xs generalizing x with
    | nil =>
      refine ⟨[], [], ?_, by simp, by simp⟩
      simp only [List.foldl_nil] at h
      simp [h]
    | cons y ys ih =>
      rw [List.foldl_cons] at h
      by_cases hc : f y < f x
      · rw [if_pos hc] at h
        obtain ⟨l₁, l₂, hdec, h₁, h₂⟩ := ih y h
        refine ⟨x :: l₁, l₂, by rw [List.cons_append, ← hdec], ?_, h₂⟩
        intro z hz
        rcases List.mem_cons.1 hz with hz | hz
        · subst hz
          have hym : y ∈ l₁ ++ m :: l₂ := by rw [← hdec]; simp
          have hmy : f m ≤ f y := by
            rcases List.mem_append.1 hym with hy | hy
            · exact le_of_lt (h₁ y hy)
            · rcases List.mem_cons.1 hy with hy | hy
              · exact le_of_eq (by rw [hy])
              · exact h₂ y hy
          exact lt_of_le_of_lt hmy hc
        · exact h₁ z hz
      · rw [if_neg hc] at h
        push_neg at hc
        obtain ⟨l₁, l₂, hdec, h₁, h₂⟩ := ih x h
        cases l₁ with
        | nil =>
          have hd : x = m ∧ ys = l₂ := by
            rw [List.nil_append] at hdec
            exact ⟨(List.cons.injEq _ _ _ _ ▸ hdec).1, (List.cons.injEq _ _ _ _ ▸ hdec).2⟩
          refine ⟨[], y :: ys, by simp [hd.1], by simp, ?_⟩
          intro z hz
          rcases List.mem_cons.1 hz with hz | hz
          · subst hz; rw [← hd.1]; exact hc
          · exact h₂ z (by rw [← hd.2]; exact hz)
        | cons a l₁' =>
          have hd : x = a ∧ ys = l₁' ++ m :: l₂ := by
            rw [List.cons_append] at hdec
            exact ⟨(List.cons.injEq _ _ _ _ ▸ hdec).1, (List.cons.injEq _ _ _ _ ▸ hdec).2⟩
          have hmx : f m < f x := h₁ x (hd.1 ▸ List.mem_cons_self a l₁')
          refine ⟨x :: y :: l₁', l₂, by simp [hd.2], ?_, h₂⟩
          intro z hz
          rcases List.mem_cons.1 hz with hz | hz
          · subst hz; exact hmx
          · rcases List.mem_cons.1 hz with hz | hz
            · subst hz; exact lt_of_lt_of_le hmx hc
            · exact h₁ z (List.mem_cons_of_mem a hz)

theorem minByKey_mem (f : α → ℚ) (l : List α) (m : α) (h : minByKey f l = some m) :
    m ∈ l := by
  obtain ⟨l₁, l₂, hdec, -, -⟩ := minByKey_decomp f l m h
  rw [hdec]; simp

theorem minByKey_isSome_iff (f : α → ℚ) (l : List α) :
    (minByKey f l).isSome ↔ l ≠ [] := by
  cases l <;> simp [minByKey]

/-- On a list whose keys are strictly decreasing, `minByKey` returns the last
element. -/
theorem minByKey_of_strict_desc (f : α → ℚ) (l : List α)
    (h : List.Chain' (fun a b => f b < f a) l) : minByKey f l = l.getLast? := by
  match l with
  | [] => rfl
  | [x] => rfl
  | x :: y :: ys =>
    have hxy : f y < f x := (List.chain'_cons.1 h).1
    have htail := (List.chain'_cons.1 h).2
    have ih := minByKey_of_strict_desc f (y :: ys) htail
    simp only [minByKey, List.foldl_cons, if_pos hxy] at *
    rw [List.getLast?_cons_cons]
    simpa [minByKey] using ih

/-! ## `src/optim.rs`: the sequence optimizer's dynamic program

`optim.rs` lines 8-9 define the two tuning constants, and `dp` (lines 69-105)
is the bounded-lookahead dynamic program over the per-image perceptual hashes.
The hash type and the pairwise cost function are abstract parameters (`cost`
replaces `optim.rs`'s `cost`, which is total on our embedding since `ℚ` has no
NaN). -/

/-- `optim.rs` line 8: `const LOOKAHEAD: usize = 3`. -/
def LOOKAHEAD : Nat := 3

/-- `optim.rs` line 9: `const SKIP_PENALTY: f64 = 0.3`. -/
def SKIP_PENALTY : ℚ := 3 / 10

/-- The candidate list `(lb..i)` of `dp`'s inner loop, with
`lb = max(0, i - LOOKAHEAD)` (Nat subtraction), each mapped to its transition
cost `costs[j] + cost(hashes[i], hashes[j]) + (i - j - 1) * SKIP_PENALTY`
paired with the candidate index. -/
def candidates [Inhabited α] (cost : α → α → ℚ) (hashes : List α) (costs : List ℚ)
    (i : Nat) (h : α) : List (ℚ × Nat) :=
  (List.range' (i - LOOKAHEAD) (i - (i - LOOKAHEAD))).map fun j =>
    (costs.getD j 0 + cost h (hashes.getD j default) + ((i - j - 1 : Nat) : ℚ) * SKIP_PENALTY, j)

/-- One iteration of `dp`'s outer `for` loop: the running index `i` is the
number of entries pushed so far, and the `(cost, prev)` minimum defaults to
`(0.0, 0)` when the candidate range is empty (`unwrap_or`). -/
def dpStep [Inhabited α] (cost : α → α → ℚ) (hashes : List α)
    (acc : List ℚ × List Nat) (h : α) : List ℚ × List Nat :=
  let i := acc.1.length
  let cp := (minByKey Prod.fst (candidates cost hashes acc.1 i h)).getD (0, 0)
  (acc.1 ++ [cp.1], acc.2 ++ [cp.2])

/-- The `costs` and `prevs` tables built by `dp`'s outer loop (`optim.rs`
lines 71-88). -/
def dpTables [Inhabited α] (cost : α → α → ℚ) (hashes : List α) : List ℚ × List Nat :=
  hashes.foldl (dpStep cost hashes) ([], [])

/-- The backtracking `while` loop of `dp` (`optim.rs` lines 90-95): follow
`prevs` pointers from `next` down to `0`, pushing each visited index, then
push `0`.  `fuel` bounds the iteration count (the Rust loop terminates because
`prevs[j] < j`, which `dpTables` guarantees). -/
def backtrack (prevs : List Nat) : Nat → Nat → List Nat
  | 0, _ => [0]
  | fuel + 1, next => if next = 0 then [0] else next :: backtrack prevs fuel (prevs.getD next 0)

/-- `optim.rs` `dp` (lines 69-105).  On an empty input the Rust code panics
(`hashes.len() - 1` underflows and indexes out of bounds), embedded as
`none`.  Otherwise it returns the reversed backtracking chain. -/
def dp [Inhabited α] (cost : α → α → ℚ) (hashes : List α) : Option (List Nat) :=
  if hashes.isEmpty then none
  else
    some ((backtrack (dpTables cost hashes).2 hashes.length (hashes.length - 1)).reverse)

/-- The invariant maintained for every entry `prevs[j]`: it is `0` at `j = 0`
and otherwise a strictly smaller index at most `LOOKAHEAD` back. -/
def PrevOk (prevs : List Nat) : Prop :=
  ∀ j, j < prevs.length → (j = 0 ∧ prevs.getD j 0 = 0) ∨
    (prevs.getD j 0 < j ∧ j ≤ prevs.getD j 0 + LOOKAHEAD)

theorem candidates_ne_nil [Inhabited α] (cost : α → α → ℚ) (hashes : List α) (costs : List ℚ)
    (i : Nat) (h : α) (hi : 1 ≤ i) : candidates cost hashes costs i h ≠ [] := by
  have : i - (i - LOOKAHEAD) ≠ 0 := by
    have : 0 < LOOKAHEAD := by decide
    omega
  simp [candidates, List.range'_eq_nil, this]

theorem dpStep_prevOk [Inhabited α] (cost : α → α → ℚ) (hashes : List α)
    (acc : List ℚ × List Nat) (h : α) (hlen : acc.1.length = acc.2.length)
    (hP : PrevOk acc.2) :
    (dpStep cost hashes acc h).1.length = (dpStep cost hashes acc h).2.length ∧
      PrevOk (dpStep cost hashes acc h).2 ∧
      (dpStep cost hashes acc h).2.length = acc.2.length + 1 := by
  refine ⟨by simp [dpStep, hlen], ?_, by simp [dpStep]⟩
  intro j hj
  simp only [dpStep, List.length_append, List.length_cons, List.length_nil] at hj
  by_cases hjold : j < acc.2.length
  · have : (dpStep cost hashes acc h).2.getD j 0 = acc.2.getD j 0 := by
      simp only [dpStep]
      exact List.getD_append _ _ _ _ hjold
    rw [this]
    exact hP j hjold
  · have hjeq : j = acc.2.length := by omega
    have hval : (dpStep cost hashes acc h).2.getD j 0 =
        ((minByKey Prod.fst (candidates cost hashes acc.1 acc.1.length h)).getD (0, 0)).2 := by
      simp only [dpStep]
      rw [List.getD_append_right _ _ _ _ (le_of_eq hjeq.symm), hjeq, Nat.sub_self]
      rfl
    by_cases hz : acc.2.length = 0
    · left
      constructor
      · omega
      · rw [hval]
        have : candidates cost hashes acc.1 acc.1.length h = [] := by
          simp [candidates, hlen, hz]
        rw [this]
        rfl
    · right
      have hi : 1 ≤ acc.1.length := by omega
      have hne := candidates_ne_nil cost hashes acc.1 acc.1.length h hi
      have hsome : ∃ m, minByKey Prod.fst (candidates cost hashes acc.1 acc.1.length h) = some m := by
        have := (minByKey_isSome_iff Prod.fst (candidates cost hashes acc.1 acc.1.length h)).2 hne
        exact Option.isSome_iff_exists.1 this
      obtain ⟨m, hm⟩ := hsome
      have hmem := minByKey_mem Prod.fst _ m hm
      simp only [candidates, List.mem_map] at hmem
      obtain ⟨cj, hcj, hcjm⟩ := hmem
      have hrange := List.mem_range'_1.1 hcj
      have hm2 : m.2 = cj := by rw [← hcjm]
      rw [hval, hm, Option.getD_some, hm2, hjeq]
      have h1 : acc.1.length - LOOKAHEAD ≤ cj := hrange.1
      have h2 : cj < acc.1.length - LOOKAHEAD + (acc.1.length - (acc.1.length - LOOKAHEAD)) :=
        hrange.2
      rw [hlen] at h1 h2
      have hL : LOOKAHEAD = 3 := rfl
      rw [hL] at h1 h2 ⊢
      omega

theorem dpTables_prevOk [Inhabited α] (cost : α → α → ℚ) (hashes : List α) :
    (dpTables cost hashes).1.length = (dpTables cost hashes).2.length ∧
      PrevOk (dpTables cost hashes).2 ∧
      (dpTables cost hashes).2.length = hashes.length := by
  have main : ∀ (l : List α) (acc : List ℚ × List Nat),
      acc.1.length = acc.2.length → PrevOk acc.2 →
      (l.foldl (dpStep cost hashes) acc).1.length = (l.foldl (dpStep cost hashes) acc).2.length ∧
        PrevOk (l.foldl (dpStep cost hashes) acc).2 ∧
        (l.foldl (dpStep cost hashes) acc).2.length = acc.2.length + l.length := by
    intro l
    induction l with
    | nil => intro acc h1 h2; exact ⟨h1, h2, by simp⟩
    | cons x xs ih =>
      intro acc h1 h2
      obtain ⟨s1, s2, s3⟩ := dpStep_prevOk cost hashes acc x h1 h2
      obtain ⟨t1, t2, t3⟩ := ih (dpStep cost hashes acc x) s1 s2
      refine ⟨t1, t2, ?_⟩
      rw [List.foldl_cons] at *
      rw [t3, s3]
      simp [Nat.add_assoc, Nat.add_comm 1 xs.length]
  have h0 : PrevOk ([] : List Nat) := by intro j hj; simp at hj
  have := main hashes ([], []) rfl h0
  simpa [dpTables] using this

theorem backtrack_spec (prevs : List Nat) (hP : PrevOk prevs) (next : Nat)
    (hn : next < prevs.length) : ∀ fuel, next ≤ fuel →
    ∃ l, backtrack prevs fuel next = next :: l ∧
      (next :: l).getLast? = some 0 ∧
      List.Chain' (fun a b => b < a ∧ a - b ≤ LOOKAHEAD) (next :: l) := by
  induction next using Nat.strong_induction_on with
  | _ next ih =>
    intro fuel hf
    match fuel with
    | 0 =>
      have : next = 0 := by omega
      subst this
      exact ⟨[], rfl, rfl, by simp⟩
    | fuel + 1 =>
      by_cases h0 : next = 0
      · subst h0
        exact ⟨[], by simp [backtrack], rfl, by simp⟩
      · have hdef : backtrack prevs (fuel + 1) next =
            next :: backtrack prevs fuel (prevs.getD next 0) := by
          simp [backtrack, h0]
        have hQ := hP next hn
        rcases hQ with ⟨hj0, -⟩ | ⟨hlt, hla⟩
        · exact absurd hj0 h0
        · have hplt : prevs.getD next 0 < prevs.length := lt_trans hlt hn
          have hpf : prevs.getD next 0 ≤ fuel := by omega
          obtain ⟨l', hl', hlast, hchain⟩ := ih (prevs.getD next 0) hlt hplt fuel hpf
          refine ⟨prevs.getD next 0 :: l', by rw [hdef, hl'], ?_, ?_⟩
          · rw [List.getLast?_cons_cons]
            exact hlast
          · rw [List.chain'_cons]
            exact ⟨⟨hlt, by omega⟩, hchain⟩

/-- C1: for every non-empty hash list (any cost function — in the embedding
every cost comparison succeeds, as `ℚ` has no NaN), `dp` returns an index
list that starts at 0, ends at `n-1`, is strictly increasing, and every gap
between consecutive chosen indices is at most `LOOKAHEAD` (= 3). -/
theorem C1_dp_order_invariants [Inhabited α] (cost : α → α → ℚ) (hashes : List α)
    (hne : hashes ≠ []) :
    ∃ l, dp cost hashes = some l ∧ l.head? = some 0 ∧
      l.getLast? = some (hashes.length - 1) ∧
      List.Chain' (fun a b => a < b ∧ b - a ≤ LOOKAHEAD) l := by
  obtain ⟨hlen, hP, hlen2⟩ := dpTables_prevOk cost hashes
  have hn : 0 < hashes.length := List.length_pos.2 hne
  have hnn : hashes.length - 1 < (dpTables cost hashes).2.length := by omega
  obtain ⟨l', hbt, hlast, hchain⟩ := backtrack_spec (dpTables cost hashes).2 hP
    (hashes.length - 1) hnn hashes.length (by omega)
  refine ⟨(backtrack (dpTables cost hashes).2 hashes.length (hashes.length - 1)).reverse,
    ?_, ?_, ?_, ?_⟩
  · simp [dp, hne]
  · rw [List.head?_reverse, hbt, hlast]
  · rw [List.getLast?_reverse, hbt]
    rfl
  · exact List.chain'_reverse.2 (by rw [hbt]; exact hchain)

/-- Witness for C1 at a concrete input: three hashes over `ℚ` with an
absolute-difference cost. -/
theorem C1_dp_order_invariants_witness :
    ∃ l, dp (fun a b : ℚ => |a - b|) [5, 7, 9] = some l ∧ l.head? = some 0 ∧
      l.getLast? = some ([5, 7, 9] : List ℚ).length.pred ∧
      List.Chain' (fun a b => a < b ∧ b - a ≤ LOOKAHEAD) l :=
  C1_dp_order_invariants (fun a b : ℚ => |a - b|) [5, 7, 9] (by decide)

/-- The predecessor table produced on an all-identical-hash input: each index
points one step back (`prevsId n = [0, 0, 1, 2, ..., n-2]`). -/
def prevsId (n : Nat) : List Nat :=
  (List.range n).map fun j => j - 1

theorem chain'_desc_range' (g : Nat → ℚ) :
    ∀ (n s : Nat), (∀ j, s ≤ j → j + 1 < s + n → g (j + 1) < g j) →
    List.Chain' (fun a b => g b < g a) (List.range' s n) := by
  intro n
  induction n with
  | zero => intro s _; simp
  | succ m ih =>
    intro s hg
    rw [List.range'_succ]
    rw [List.chain'_cons']
    constructor
    · intro y hy
      match m, hy with
      | m + 1, hy =>
        rw [List.range'_succ] at hy
        simp only [List.head?_cons, Option.mem_def, Option.some.injEq] at hy
        subst hy
        exact hg s le_rfl (by omega)
    · exact ih (s + 1) fun j hj hj2 => hg j (by omega) (by omega)

theorem prevsId_getD (n j : Nat) (hj : j < n) : (prevsId n).getD j 0 = j - 1 := by
  rw [prevsId, List.getD_eq_getElem _ _ (by simpa using hj)]
  simp

theorem candidates_replicate (cost : α → α → ℚ) [Inhabited α] (h : α) (m k : Nat)
    (hch : cost h h = 0) (hkm : k < m) :
    candidates cost (List.replicate m h) (List.replicate k 0) k h =
      (List.range' (k - LOOKAHEAD) (k - (k - LOOKAHEAD))).map
        fun j => (((k - j - 1 : Nat) : ℚ) * SKIP_PENALTY, j) := by
  rw [candidates]
  refine List.map_congr_left ?_
  intro j hj
  have hjk : j < k := by
    have := (List.mem_range'_1.1 hj).2
    omega
  have h1 : (List.replicate k (0 : ℚ)).getD j 0 = 0 := by
    rw [List.getD_eq_getElem?_getD]
    simp
  have h2 : (List.replicate m h).getD j default = h := by
    rw [List.getD_eq_getElem _ _ (by simpa using lt_trans hjk hkm)]
    simp
  rw [h1, h2, hch]
  ring_nf

theorem dpStep_replicate (cost : α → α → ℚ) [Inhabited α] (h : α) (m k : Nat)
    (hch : cost h h = 0) (hkm : k < m) :
    dpStep cost (List.replicate m h) (List.replicate k 0, prevsId k) h =
      (List.replicate (k + 1) 0, prevsId (k + 1)) := by
  have hi : (List.replicate k (0 : ℚ)).length = k := by simp
  rw [dpStep]
  simp only [hi]
  rw [candidates_replicate cost h m k hch hkm]
  match k with
  | 0 => rfl
  | k + 1 =>
    set g : Nat → ℚ := fun j => ((k + 1 - j - 1 : Nat) : ℚ) * SKIP_PENALTY with hg
    have hlen : k + 1 - (k + 1 - LOOKAHEAD) = (k - (k + 1 - LOOKAHEAD)) + 1 := by
      have : LOOKAHEAD = 3 := rfl
      omega
    have hconcat : List.range' (k + 1 - LOOKAHEAD) (k + 1 - (k + 1 - LOOKAHEAD)) =
        List.range' (k + 1 - LOOKAHEAD) (k - (k + 1 - LOOKAHEAD)) ++ [k] := by
      rw [hlen, List.range'_1_concat]
      have h3 : LOOKAHEAD = 3 := rfl
      have : k + 1 - LOOKAHEAD + (k - (k + 1 - LOOKAHEAD)) = k := by rw [h3]; omega
      rw [this]
    have hdesc : List.Chain' (fun a b : ℚ × Nat => b.1 < a.1)
        ((List.range' (k + 1 - LOOKAHEAD) (k + 1 - (k + 1 - LOOKAHEAD))).map
          fun j => (g j, j)) := by
      rw [List.chain'_map]
      refine chain'_desc_range' g _ _ ?_
      intro j hj hj2
      have hkj : j + 1 < k + 1 := by
        have : LOOKAHEAD = 3 := rfl
        omega
      rw [hg]
      have hcast : ((k + 1 - (j + 1) - 1 : Nat) : ℚ) < ((k + 1 - j - 1 : Nat) : ℚ) := by
        rw [Nat.cast_lt]
        omega
      have hsp : (0 : ℚ) < SKIP_PENALTY := by
        rw [SKIP_PENALTY]; norm_num
      exact mul_lt_mul_of_pos_right hcast hsp
    rw [minByKey_of_strict_desc _ _ hdesc, hconcat, List.map_append]
    simp only [List.map_cons, List.map_nil]
    rw [List.getLast?_concat]
    have hgk : g k = 0 := by
      rw [hg]
      norm_num
    simp only [Option.getD_some]
    rw [hgk]
    have e1 : List.replicate (k + 1) (0 : ℚ) ++ [0] = List.replicate (k + 1 + 1) 0 :=
      (List.replicate_succ' (k + 1) (0 : ℚ)).symm
    have e2 : prevsId (k + 1) ++ [k] = prevsId (k + 1 + 1) := by
      rw [prevsId, prevsId]
      have hr : List.range (k + 1 + 1) = List.range (k + 1) ++ [k + 1] := List.range_succ (k + 1)
      rw [hr, List.map_append]
      simp
    rw [e1, e2]

theorem dpTables_replicate (cost : α → α → ℚ) [Inhabited α] (h : α) (n : Nat)
    (hch : cost h h = 0) :
    dpTables cost (List.replicate n h) = (List.replicate n 0, prevsId n) := by
  have main : ∀ t k, k + t ≤ n →
      (List.replicate t h).foldl (dpStep cost (List.replicate n h))
        (List.replicate k 0, prevsId k) = (List.replicate (k + t) 0, prevsId (k + t)) := by
    intro t
    induction t with
    | zero => intro k _; simp
    | succ t ih =>
      intro k hk
      rw [List.replicate_succ, List.foldl_cons,
        dpStep_replicate cost h n k hch (by omega)]
      have := ih (k + 1) (by omega)
      rw [this]
      have : k + 1 + t = k + (t + 1) := by omega
      rw [this]
  have h0 := main n 0 (by omega)
  rw [dpTables]
  have hz : (List.replicate 0 (0 : ℚ), prevsId 0) = (([] : List ℚ), ([] : List Nat)) := rfl
  rw [← hz, h0]
  simp

theorem backtrack_prevsId (n : Nat) :
    ∀ next fuel, next ≤ fuel → next < n →
    backtrack (prevsId n) fuel next = (List.range (next + 1)).reverse := by
  intro next
  induction next with
  | zero =>
    intro fuel _ _
    match fuel with
    | 0 => rfl
    | fuel + 1 =>
      rw [backtrack, if_pos rfl]
      rfl
  | succ next ih =>
    intro fuel hf hn
    match fuel with
    | fuel + 1 =>
      have hget : (prevsId n).getD (next + 1) 0 = next := by
        rw [prevsId_getD n (next + 1) hn]
        omega
      rw [backtrack]
      rw [if_neg (Nat.succ_ne_zero next), hget, ih fuel (by omega) (by omega)]
      have hr : List.range (next + 1 + 1) = List.range (next + 1) ++ [next + 1] :=
        List.range_succ (next + 1)
      rw [hr, List.reverse_append]
      rfl

/-- C6: on `n ≥ 1` pairwise-identical hashes (so every transition cost is
zero, mirrored here by `cost h h = 0`), the dynamic program returns exactly
the identity order `[0, 1, ..., n-1]`: no frame is skipped, because the zero
transition cost dominates the positive skip penalty. -/
theorem C6_dp_identity_on_identical [Inhabited α] (cost : α → α → ℚ) (h : α) (n : Nat)
    (hch : cost h h = 0) (hn : 1 ≤ n) :
    dp cost (List.replicate n h) = some (List.range n) := by
  have hne : ¬(List.replicate n h).isEmpty = true := by
    simp [List.isEmpty_iff]
    omega
  rw [dp, if_neg hne, dpTables_replicate cost h n hch]
  have hlen : (List.replicate n h).length = n := by simp
  rw [hlen]
  rw [backtrack_prevsId n (n - 1) n (by omega) (by omega)]
  rw [List.reverse_reverse]
  have : n - 1 + 1 = n := by omega
  rw [this]

/-- Witness for C6 at a concrete input: four identical hashes with the
indicator cost function give the identity order `[0, 1, 2, 3]`. -/
theorem C6_dp_identity_on_identical_witness :
    dp (fun a b : ℚ => if a = b then 0 else 1) (List.replicate 4 (5 : ℚ)) =
      some (List.range 4) :=
  C6_dp_identity_on_identical (fun a b : ℚ => if a = b then 0 else 1) 5 4 (by norm_num)
    (by omega)

/-! ## `src/main.rs`: data model

`geo::Point<f64>` stores `(x, y) = (lng, lat)`; `Point::new(x, y)` and the
accessors `lat()/lng()` follow the `geo` crate.  The geodesic primitives of
the `geo` crate (`geodesic_distance`, `bearing`) are abstract parameters `gd`
and `brg` below: the claims are structural in them. -/

/-- `geo::Point<f64>`: `x` is the longitude, `y` the latitude. -/
structure Point where
  x : ℚ
  y : ℚ
deriving DecidableEq

instance : Inhabited Point := ⟨⟨0, 0⟩⟩

def Point.lat (p : Point) : ℚ := p.y

def Point.lng (p : Point) : ℚ := p.x

/-- `main.rs` lines 85-89: `GSVPoint { lat, lng }`. -/
structure GSVPoint where
  lat : ℚ
  lng : ℚ
deriving DecidableEq

instance : Inhabited GSVPoint := ⟨⟨0, 0⟩⟩

/-- `main.rs` lines 91-104: `GSVMetadata { date, location, pano_id, status }`. -/
structure GSVMetadata where
  date : String
  location : GSVPoint
  pano_id : String
  status : String
deriving DecidableEq

instance : Inhabited GSVMetadata := ⟨⟨"", ⟨0, 0⟩, "", ""⟩⟩

/-- `main.rs` lines 110-114: `PointBearing { point, bearing }`. -/
structure PointBearing where
  point : Point
  bearing : ℚ
deriving DecidableEq

instance : Inhabited PointBearing := ⟨⟨⟨0, 0⟩, 0⟩⟩

/-! ## `src/main.rs` lines 402-423: `sample_points_by_distance` -/

/-- The loop body's emission: push `points[idx]` when the accumulated
distance has reached `step * sample.len()`. -/
def nextSample (points : List Point) (step current : ℚ) (idx : Nat) (sample : List Point) :
    List Point :=
  if step * (sample.length : ℚ) ≤ current then sample ++ [points.getD idx default] else sample

/-- The loop body's accumulation: `current += distances[idx]`, guarded by the
bounds check (`main.rs` lines 416-419). -/
def nextCurrent (distances : List ℚ) (current : ℚ) (idx : Nat) : ℚ :=
  if idx < distances.length then current + distances.getD idx 0 else current

/-- The `while` loop of `sample_points_by_distance`: a point is pushed when
the accumulated distance `current` has reached `step * sample.len()`; the
distance to the next point is then accumulated (guarded by the bounds check
on `distances`), and the walk stops once `n` points are emitted or the input
is exhausted. -/
def sampleLoop (points : List Point) (n : Nat) (distances : List ℚ) (step : ℚ)
    (current : ℚ) (idx : Nat) (sample : List Point) : List Point :=
  if h : sample.length < n ∧ idx < points.length then
    sampleLoop points n distances step (nextCurrent distances current idx) (idx + 1)
      (nextSample points step current idx sample)
  else sample
termination_by points.length - idx
decreasing_by
  omega

/-- `main.rs` `sample_points_by_distance` (lines 402-423), with
`step = total_dist / (n - 0.99)`. -/
def sample_points_by_distance (points : List Point) (n : Nat) (distances : List ℚ) :
    List Point :=
  sampleLoop points n distances (distances.sum / ((n : ℚ) - 99 / 100)) 0 0 []

/-- The spec's description of the resampler: walking the points in order
while counting emitted points `k`, the point at position `idx` is emitted
exactly when the distance accumulated before it — the prefix sum
`(distances.take idx).sum` — has reached `k * step`, stopping after `n`
emissions. -/
def sampleSpecGo (allDist : List ℚ) (step : ℚ) (n : Nat) :
    List Point → Nat → Nat → List Point
  | [], _, _ => []
  | p :: ps, idx, k =>
    if k < n then
      if step * (k : ℚ) ≤ (allDist.take idx).sum then
        p :: sampleSpecGo allDist step n ps (idx + 1) (k + 1)
      else sampleSpecGo allDist step n ps (idx + 1) k
    else []

theorem sampleLoop_decomp (points : List Point) (n : Nat) (distances : List ℚ) (step : ℚ) :
    ∀ (current : ℚ) (idx : Nat) (sample : List Point),
    ∃ rest, sampleLoop points n distances step current idx sample = sample ++ rest ∧
      rest.Sublist (points.drop idx) ∧
      sample.length + rest.length ≤ max n sample.length := by
  intro current idx sample
  induction current, idx, sample using sampleLoop.induct points n distances step with
  | case1 current idx sample h ih =>
    rw [sampleLoop, dif_pos h]
    by_cases hemit : step * (sample.length : ℚ) ≤ current
    · have hns : nextSample points step current idx sample =
          sample ++ [points.getD idx default] := by
        rw [nextSample, if_pos hemit]
      rw [hns] at ih
      obtain ⟨rest', hr, hsub, hlen⟩ := ih
      refine ⟨points.getD idx default :: rest', ?_, ?_, ?_⟩
      · rw [hns, hr, List.append_assoc]
        rfl
      · have hdrop : points.drop idx = points.getD idx default :: points.drop (idx + 1) := by
          rw [List.getD_eq_getElem _ _ h.2]
          exact List.drop_eq_getElem_cons h.2
        rw [hdrop]
        exact List.Sublist.cons₂ _ hsub
      · simp only [List.length_append, List.length_cons, List.length_nil] at hlen ⊢
        have hmax : max n (sample.length + 1) = n := Nat.max_eq_left h.1
        rw [hmax] at hlen
        have : sample.length + (rest'.length + 1) ≤ n := by omega
        exact this.trans (le_max_left _ _)
    · have hns : nextSample points step current idx sample = sample := by
        rw [nextSample, if_neg hemit]
      rw [hns] at ih
      obtain ⟨rest', hr, hsub, hlen⟩ := ih
      refine ⟨rest', by rw [hns, hr], ?_, hlen⟩
      refine hsub.trans ?_
      have : points.drop (idx + 1) = (points.drop idx).drop 1 := by
        rw [List.drop_drop]
      rw [this]
      exact List.drop_sublist 1 (points.drop idx)
  | case2 current idx sample h =>
    rw [sampleLoop, dif_neg h]
    refine ⟨[], by simp, by simp, ?_⟩
    simp only [List.length_nil, Nat.add_zero]
    exact le_max_right n sample.length

theorem sum_take_succ (distances : List ℚ) (idx : Nat) :
    (distances.take (idx + 1)).sum = (distances.take idx).sum +
      (if idx < distances.length then distances.getD idx 0 else 0) := by
  rw [List.take_succ, List.sum_append]
  by_cases hd : idx < distances.length
  · rw [if_pos hd]
    rw [List.getElem?_eq_getElem hd]
    rw [List.getD_eq_getElem _ _ hd]
    simp
  · rw [if_neg hd]
    rw [List.getElem?_eq_none (by omega)]
    simp

theorem sampleLoop_eq_spec (points : List Point) (n : Nat) (distances : List ℚ) (step : ℚ) :
    ∀ (current : ℚ) (idx : Nat) (sample : List Point),
      current = (distances.take idx).sum →
      sampleLoop points n distances step current idx sample =
        sample ++ sampleSpecGo distances step n (points.drop idx) idx sample.length := by
  intro current idx sample
  induction current, idx, sample using sampleLoop.induct points n distances step with
  | case1 current idx sample h ih =>
    intro hcur
    have hdrop : points.drop idx = points.getD idx default :: points.drop (idx + 1) := by
      rw [List.getD_eq_getElem _ _ h.2]
      exact List.drop_eq_getElem_cons h.2
    have hcur' : nextCurrent distances current idx = (distances.take (idx + 1)).sum := by
      rw [nextCurrent, sum_take_succ, ← hcur]
      by_cases hd : idx < distances.length
      · rw [if_pos hd, if_pos hd]
      · rw [if_neg hd, if_neg hd, add_zero]
    have IH := ih hcur'
    rw [sampleLoop, dif_pos h, hdrop, sampleSpecGo, if_pos h.1]
    by_cases hemit : step * (sample.length : ℚ) ≤ current
    · have hns : nextSample points step current idx sample =
          sample ++ [points.getD idx default] := by
        rw [nextSample, if_pos hemit]
      rw [hns] at IH
      rw [hns, if_pos (hcur ▸ hemit), IH]
      simp [List.append_assoc]
    · have hns : nextSample points step current idx sample = sample := by
        rw [nextSample, if_neg hemit]
      rw [hns] at IH
      rw [hns, if_neg (hcur ▸ hemit), IH]
  | case2 current idx sample h =>
    intro _
    rw [sampleLoop, dif_neg h]
    rcases Decidable.em (idx < points.length) with hidx | hidx
    · have hk : ¬sample.length < n := fun hk => h ⟨hk, hidx⟩
      have hdrop : points.drop idx = points.getD idx default :: points.drop (idx + 1) := by
        rw [List.getD_eq_getElem _ _ hidx]
        exact List.drop_eq_getElem_cons hidx
      rw [hdrop, sampleSpecGo, if_neg hk, List.append_nil]
    · rw [List.drop_eq_nil_of_le (by omega), sampleSpecGo, List.append_nil]

/-- C2: the uniform resampler walks the point/distance arrays accumulating
traveled distance, emitting the point at position `idx` exactly when the
accumulated distance `(distances.take idx).sum` has reached `k * step` for
the next unemitted index `k`, with `step = total / (n - 0.99)`
(`sampleSpecGo` is that spec-side description); the output is a subsequence
of the input (order preserved) of length at most `n`. -/
theorem C2_sample_points_by_distance (points : List Point) (n : Nat) (distances : List ℚ)
    (hn : 1 ≤ n) :
    (sample_points_by_distance points n distances).Sublist points ∧
    (sample_points_by_distance points n distances).length ≤ n ∧
    sample_points_by_distance points n distances =
      sampleSpecGo distances (distances.sum / ((n : ℚ) - 99 / 100)) n points 0 0 := by
  obtain ⟨rest, hr, hsub, hlen⟩ :=
    sampleLoop_decomp points n distances (distances.sum / ((n : ℚ) - 99 / 100)) 0 0 []
  have heq := sampleLoop_eq_spec points n distances (distances.sum / ((n : ℚ) - 99 / 100))
    0 0 [] (by simp)
  rw [List.nil_append] at hr heq
  rw [List.drop_zero] at hsub heq
  refine ⟨?_, ?_, ?_⟩
  · rw [sample_points_by_distance, hr]
    exact hsub
  · rw [sample_points_by_distance, hr]
    simp only [List.length_nil, Nat.zero_add] at hlen
    omega
  · rw [sample_points_by_distance, heq]
    rfl

/-- Witness for C2 at a concrete input: four collinear points with unit
segment distances resampled to three. -/
theorem C2_sample_points_by_distance_witness :
    (sample_points_by_distance [⟨0, 0⟩, ⟨1, 0⟩, ⟨2, 0⟩, ⟨3, 0⟩] 3 [1, 1, 1]).Sublist
      [⟨0, 0⟩, ⟨1, 0⟩, ⟨2, 0⟩, ⟨3, 0⟩] ∧
    (sample_points_by_distance [⟨0, 0⟩, ⟨1, 0⟩, ⟨2, 0⟩, ⟨3, 0⟩] 3 [1, 1, 1]).length ≤ 3 ∧
    sample_points_by_distance [⟨0, 0⟩, ⟨1, 0⟩, ⟨2, 0⟩, ⟨3, 0⟩] 3 [1, 1, 1] =
      sampleSpecGo [1, 1, 1] (([1, 1, 1] : List ℚ).sum / ((3 : ℚ) - 99 / 100)) 3
        [⟨0, 0⟩, ⟨1, 0⟩, ⟨2, 0⟩, ⟨3, 0⟩] 0 0 :=
  C2_sample_points_by_distance [⟨0, 0⟩, ⟨1, 0⟩, ⟨2, 0⟩, ⟨3, 0⟩] 3 [1, 1, 1] (by omega)

/-! ## `src/main.rs` lines 425-442: `find_bearings` -/

/-- The pairwise part of `find_bearings` (`main.rs` lines 426-433): one
`PointBearing` per consecutive pair of points. -/
def bearingPairs (brg : Point → Point → ℚ) (points : List Point) : List PointBearing :=
  (points.zip points.tail).map fun pp => PointBearing.mk pp.1 (brg pp.1 pp.2)

/-- `main.rs` `find_bearings` (lines 425-442): the pairwise bearings, then
the last point is appended reusing the bearing of the last computed pair
(`results[results.len() - 1]`).  On an input with fewer than two points the
Rust code panics — `points[points.len() - 1]` underflows on an empty input,
and `results[results.len() - 1]` underflows when there is no consecutive
pair — embedded as `none`. -/
def find_bearings (brg : Point → Point → ℚ) (points : List Point) :
    Option (List PointBearing) :=
  match points.getLast?, (bearingPairs brg points).getLast? with
  | some lp, some lb => some (bearingPairs brg points ++ [⟨lp, lb.bearing⟩])
  | _, _ => none

theorem bearingPairs_length (brg : Point → Point → ℚ) (points : List Point) :
    (bearingPairs brg points).length = points.length - 1 := by
  rw [bearingPairs, List.length_map, List.length_zip, List.length_tail]
  omega

theorem bearingPairs_getD (brg : Point → Point → ℚ) (points : List Point) (i : Nat)
    (hi : i + 1 < points.length) :
    (bearingPairs brg points).getD i default =
      ⟨points.getD i default, brg (points.getD i default) (points.getD (i + 1) default)⟩ := by
  have hlen : i < (bearingPairs brg points).length := by
    rw [bearingPairs_length]
    omega
  have hzl : i < (points.zip points.tail).length := by
    rw [List.length_zip, List.length_tail]
    omega
  have htl : i < points.tail.length := by
    rw [List.length_tail]
    omega
  have h1 : (bearingPairs brg points).getD i default =
      (fun pp : Point × Point => PointBearing.mk pp.1 (brg pp.1 pp.2))
        ((points.zip points.tail).getD i (default, default)) := by
    rw [List.getD_eq_getElem _ _ hlen, List.getD_eq_getElem _ _ hzl]
    simp only [bearingPairs]
    exact List.getElem_map _
  have h2 : (points.zip points.tail).getD i (default, default) =
      (points.getD i default, points.tail.getD i default) := by
    rw [List.getD_eq_getElem _ _ hzl, List.getD_eq_getElem _ _ (by omega : i < points.length),
      List.getD_eq_getElem _ _ htl]
    exact List.getElem_zip
  have h3 : points.tail.getD i default = points.getD (i + 1) default := by
    rw [List.getD_eq_getElem _ _ htl, List.getD_eq_getElem _ _ hi]
    exact List.getElem_tail points i htl
  rw [h1, h2, h3]

theorem bearingPairs_getLast? (brg : Point → Point → ℚ) (points : List Point)
    (hn : 2 ≤ points.length) :
    (bearingPairs brg points).getLast? =
      some ⟨points.getD (points.length - 2) default,
        brg (points.getD (points.length - 2) default)
          (points.getD (points.length - 1) default)⟩ := by
  rw [List.getLast?_eq_getElem?]
  rw [List.getElem?_eq_getElem (by rw [bearingPairs_length]; omega)]
  rw [← List.getD_eq_getElem _ default (by rw [bearingPairs_length]; omega)]
  rw [bearingPairs_length]
  have h2 := bearingPairs_getD brg points (points.length - 1 - 1) (by omega)
  have e1 : points.length - 1 - 1 = points.length - 2 := by omega
  have e2 : points.length - 1 - 1 + 1 = points.length - 1 := by omega
  rw [e2] at h2
  rw [e1] at h2
  rw [e1, h2]

theorem points_getLast? (points : List Point) (hn : 1 ≤ points.length) :
    points.getLast? = some (points.getD (points.length - 1) default) := by
  rw [List.getLast?_eq_getElem?]
  rw [List.getElem?_eq_getElem (by omega)]
  rw [List.getD_eq_getElem _ _ (by omega)]

/-- C8: whenever `find_bearings` succeeds (exactly on inputs of at least two
points), it assigns to each non-final point the bearing toward its successor,
preserves the points in order, and assigns to the final point the bearing of
the preceding segment (from the second-to-last point to the last) — so every
returned viewpoint, including the last, carries a defined bearing. -/
theorem C8_find_bearings_last (brg : Point → Point → ℚ) (points : List Point)
    (hn : 2 ≤ points.length) :
    ∃ res, find_bearings brg points = some res ∧ res.length = points.length ∧
      (∀ i, i + 1 < points.length →
        res.getD i default =
          ⟨points.getD i default, brg (points.getD i default) (points.getD (i + 1) default)⟩) ∧
      res.getD (points.length - 1) default =
        ⟨points.getD (points.length - 1) default,
         brg (points.getD (points.length - 2) default)
           (points.getD (points.length - 1) default)⟩ := by
  have hplast := points_getLast? points (by omega)
  have hblast := bearingPairs_getLast? brg points hn
  refine ⟨bearingPairs brg points ++ [⟨points.getD (points.length - 1) default,
      brg (points.getD (points.length - 2) default)
        (points.getD (points.length - 1) default)⟩], ?_, ?_, ?_, ?_⟩
  · rw [find_bearings, hplast, hblast]
  · rw [List.length_append, bearingPairs_length]
    simp only [List.length_cons, List.length_nil]
    omega
  · intro i hi
    rw [List.getD_append _ _ _ _ (by rw [bearingPairs_length]; omega)]
    exact bearingPairs_getD brg points i hi
  · rw [List.getD_append_right _ _ _ _ (le_of_eq (bearingPairs_length brg points))]
    rw [bearingPairs_length]
    have : points.length - 1 - (points.length - 1) = 0 := by omega
    rw [this]
    rfl

/-- Witness for C8 at a concrete input: three points, flat "longitude
difference" bearing. -/
theorem C8_find_bearings_last_witness :
    ∃ res, find_bearings (fun a b => b.x - a.x) [⟨0, 0⟩, ⟨1, 0⟩, ⟨3, 0⟩] = some res ∧
      res.length = ([⟨0, 0⟩, ⟨1, 0⟩, ⟨3, 0⟩] : List Point).length ∧
      (∀ i, i + 1 < ([⟨0, 0⟩, ⟨1, 0⟩, ⟨3, 0⟩] : List Point).length →
        res.getD i default =
          ⟨([⟨0, 0⟩, ⟨1, 0⟩, ⟨3, 0⟩] : List Point).getD i default,
           (fun a b : Point => b.x - a.x) (([⟨0, 0⟩, ⟨1, 0⟩, ⟨3, 0⟩] : List Point).getD i default)
             (([⟨0, 0⟩, ⟨1, 0⟩, ⟨3, 0⟩] : List Point).getD (i + 1) default)⟩) ∧
      res.getD (([⟨0, 0⟩, ⟨1, 0⟩, ⟨3, 0⟩] : List Point).length - 1) default =
        ⟨([⟨0, 0⟩, ⟨1, 0⟩, ⟨3, 0⟩] : List Point).getD
            (([⟨0, 0⟩, ⟨1, 0⟩, ⟨3, 0⟩] : List Point).length - 1) default,
         (fun a b : Point => b.x - a.x)
           (([⟨0, 0⟩, ⟨1, 0⟩, ⟨3, 0⟩] : List Point).getD
             (([⟨0, 0⟩, ⟨1, 0⟩, ⟨3, 0⟩] : List Point).length - 2) default)
           (([⟨0, 0⟩, ⟨1, 0⟩, ⟨3, 0⟩] : List Point).getD
             (([⟨0, 0⟩, ⟨1, 0⟩, ⟨3, 0⟩] : List Point).length - 1) default)⟩ :=
  C8_find_bearings_last (fun a b => b.x - a.x) [⟨0, 0⟩, ⟨1, 0⟩, ⟨3, 0⟩] (by decide)

/-- C10: `find_bearings` is total exactly on inputs of at least two points —
it fails (the Rust code panics on its out-of-range index) on an empty or
single-point input, and on `n ≥ 2` points returns exactly one oriented
viewpoint per input point. -/
theorem C10_find_bearings_partiality (brg : Point → Point → ℚ) (points : List Point) :
    (find_bearings brg points = none ↔ points.length < 2) ∧
      ∀ res, find_bearings brg points = some res → res.length = points.length := by
  constructor
  · constructor
    · intro hnone
      by_contra hlen
      obtain ⟨res, hsome, -, -, -⟩ := C8_find_bearings_last brg points (by omega)
      rw [hsome] at hnone
      exact Option.noConfusion hnone
    · intro hlen
      match points, hlen with
      | [], _ => rfl
      | [p], _ => rfl
  · intro res hsome
    rcases Nat.lt_or_ge points.length 2 with hlen | hlen
    · match points, hlen with
      | [], _ => exact Option.noConfusion hsome
      | [p], _ => exact Option.noConfusion hsome
    · obtain ⟨res', hsome', hlen', -, -⟩ := C8_find_bearings_last brg points hlen
      rw [hsome'] at hsome
      have : res' = res := Option.some_injective _ hsome
      rw [← this]
      exact hlen'

/-- Witness for C10: totality boundary checked at a one-point input. -/
theorem C10_find_bearings_partiality_witness :
    (find_bearings (fun a b => b.x - a.x) [⟨0, 0⟩] = none ↔
      ([⟨0, 0⟩] : List Point).length < 2) ∧
      ∀ res, find_bearings (fun a b => b.x - a.x) [⟨0, 0⟩] = some res →
        res.length = ([⟨0, 0⟩] : List Point).length :=
  C10_find_bearings_partiality (fun a b => b.x - a.x) [⟨0, 0⟩]

/-! ## `src/main.rs` lines 337-373: `group_by_location` (the deduplicator)

The geodesic distance of the `geo` crate is the abstract parameter `gd`.
A group's positional error entry is computed as
`point.geodesic_distance(Point::new(location.lng, location.lat))`. -/

/-- `Point::new(meta.location.lng, meta.location.lat)` (`main.rs` line 354). -/
def panoPoint (m : GSVMetadata) : Point := ⟨m.location.lng, m.location.lat⟩

/-- Attach the positional error to a kept pair (`main.rs` lines 353-355). -/
def withErr (gd : Point → Point → ℚ) (pm : PointBearing × GSVMetadata) :
    PointBearing × GSVMetadata × ℚ :=
  (pm.1, pm.2, gd pm.1.point (panoPoint pm.2))

/-- The pairs that participate in deduplication: the zip of the two inputs
(silently truncating to the shorter, as Rust's `zip` does) filtered to
`status == "OK"` (`main.rs` lines 343-346). -/
def okPairs (pbs : List PointBearing) (ms : List GSVMetadata) :
    List (PointBearing × GSVMetadata) :=
  (pbs.zip ms).filter fun pm => pm.2.status == "OK"

/-- `grouped_points[groups - 1].push(x)` (`main.rs` line 359). -/
def pushLast (groups : List (List α)) (x : α) : List (List α) :=
  groups.dropLast ++ [groups.getLastD [] ++ [x]]

/-- One iteration of the grouping walk (`main.rs` lines 343-360): start a new
group when the pano id changes from the previous kept record, then push the
pair with its positional error into the last group. -/
def buildStep (gd : Point → Point → ℚ)
    (acc : List (List (PointBearing × GSVMetadata × ℚ)) × Option String)
    (pm : PointBearing × GSVMetadata) :
    List (List (PointBearing × GSVMetadata × ℚ)) × Option String :=
  (pushLast
    (match acc.2 with
      | some lp => if lp ≠ pm.2.pano_id then acc.1 ++ [[]] else acc.1
      | none => acc.1)
    (withErr gd pm),
   some pm.2.pano_id)

/-- The grouping walk, started from `vec![vec![]]` and `last_pano = None`. -/
def buildGroups (gd : Point → Point → ℚ) (l : List (PointBearing × GSVMetadata)) :
    List (List (PointBearing × GSVMetadata × ℚ)) :=
  (l.foldl (buildStep gd) ([[]], none)).1

/-- The `.map(min_by_key(err).unwrap())` pass (`main.rs` lines 361-369): every
group must yield a minimum, i.e. be non-empty, otherwise the Rust `unwrap`
panics (`none`). -/
def minGroups (gs : List (List (PointBearing × GSVMetadata × ℚ))) :
    Option (List (PointBearing × GSVMetadata × ℚ)) :=
  match gs with
  | [] => some []
  | g :: rest =>
    match minByKey (fun t => t.2.2) g, minGroups rest with
    | some m, some ms => some (m :: ms)
    | _, _ => none

/-- `main.rs` `group_by_location` (lines 337-373): kept viewpoints, kept
metadata and per-representative positional errors, in order. -/
def group_by_location (gd : Point → Point → ℚ) (point_bearings : List PointBearing)
    (metadata : List GSVMetadata) :
    Option (List PointBearing × List GSVMetadata × List ℚ) :=
  match minGroups (buildGroups gd (okPairs point_bearings metadata)) with
  | none => none
  | some best => some (best.map (·.1), best.map (fun t => t.2.1), best.map (fun t => t.2.2))

/-- Spec-side description of the walk: consume the remaining pairs, growing
the current group `cur` while the pano id equals `lp`, and closing it
whenever the id changes. -/
def consume (gd : Point → Point → ℚ) (cur : List (PointBearing × GSVMetadata × ℚ))
    (lp : String) : List (PointBearing × GSVMetadata) →
    List (List (PointBearing × GSVMetadata × ℚ))
  | [] => [cur]
  | pm :: rest =>
    if lp ≠ pm.2.pano_id then cur :: consume gd [withErr gd pm] pm.2.pano_id rest
    else consume gd (cur ++ [withErr gd pm]) pm.2.pano_id rest

/-- Spec-side adjacency chunking: maximal runs of equal pano ids. -/
def chunkOk (gd : Point → Point → ℚ) :
    List (PointBearing × GSVMetadata) → List (List (PointBearing × GSVMetadata × ℚ))
  | [] => []
  | pm :: rest => consume gd [withErr gd pm] pm.2.pano_id rest

theorem pushLast_concat (A : List (List α)) (c : List α) (x : α) :
    pushLast (A ++ [c]) x = A ++ [c ++ [x]] := by
  rw [pushLast, List.dropLast_concat]
  have : (A ++ [c]).getLastD [] = c := by
    rw [List.getLastD_eq_getLast?, List.getLast?_concat]
    rfl
  rw [this]

theorem foldl_buildStep (gd : Point → Point → ℚ) :
    ∀ (rest : List (PointBearing × GSVMetadata))
      (G : List (List (PointBearing × GSVMetadata × ℚ)))
      (cur : List (PointBearing × GSVMetadata × ℚ)) (lp : String), cur ≠ [] →
      (rest.foldl (buildStep gd) (G ++ [cur], some lp)).1 = G ++ consume gd cur lp rest := by
  intro rest
  induction rest with
  | nil => intro G cur lp _; rfl
  | cons pm rest ih =>
    intro G cur lp hcur
    rw [List.foldl_cons, consume]
    by_cases hne : lp ≠ pm.2.pano_id
    · have hstep : buildStep gd (G ++ [cur], some lp) pm =
          ((G ++ [cur]) ++ [[withErr gd pm]], some pm.2.pano_id) := by
        rw [buildStep]
        simp only [if_pos hne]
        rw [pushLast_concat (G ++ [cur]) [] (withErr gd pm)]
        rfl
      rw [hstep, if_pos hne]
      rw [ih (G ++ [cur]) [withErr gd pm] pm.2.pano_id (by simp)]
      rw [List.append_assoc]
      rfl
    · have hstep : buildStep gd (G ++ [cur], some lp) pm =
          (G ++ [cur ++ [withErr gd pm]], some pm.2.pano_id) := by
        rw [buildStep]
        simp only [if_neg hne]
        rw [pushLast_concat G cur (withErr gd pm)]
      rw [hstep, if_neg hne]
      exact ih G (cur ++ [withErr gd pm]) pm.2.pano_id (by simp)

theorem buildGroups_eq_chunkOk (gd : Point → Point → ℚ)
    (l : List (PointBearing × GSVMetadata)) (hne : l ≠ []) :
    buildGroups gd l = chunkOk gd l := by
  match l with
  | pm :: rest =>
    rw [buildGroups, List.foldl_cons, chunkOk]
    have hstep : buildStep gd ([[]], none) pm = ([[withErr gd pm]], some pm.2.pano_id) := rfl
    rw [hstep]
    have := foldl_buildStep gd rest [] [withErr gd pm] pm.2.pano_id (by simp)
    simpa using this

theorem consume_spec (gd : Point → Point → ℚ) :
    ∀ (rest : List (PointBearing × GSVMetadata))
      (cur : List (PointBearing × GSVMetadata × ℚ)) (lp : String),
      cur ≠ [] → (∀ t ∈ cur, t.2.1.pano_id = lp) →
      (consume gd cur lp rest).flatten = cur ++ rest.map (withErr gd) ∧
      (∀ g ∈ consume gd cur lp rest, g ≠ []) ∧
      (∀ g ∈ consume gd cur lp rest, ∃ p, ∀ t ∈ g, t.2.1.pano_id = p) ∧
      (∀ t ∈ (consume gd cur lp rest).headD [], t.2.1.pano_id = lp) ∧
      List.Chain' (fun g g' => ∀ a ∈ g, ∀ b ∈ g', a.2.1.pano_id ≠ b.2.1.pano_id)
        (consume gd cur lp rest) := by
  intro rest
  induction rest with
  | nil =>
    intro cur lp hcur hpano
    refine ⟨by simp [consume], ?_, ?_, ?_, ?_⟩
    · intro g hg
      rw [consume] at hg
      simp only [List.mem_singleton] at hg
      rw [hg]
      exact hcur
    · intro g hg
      rw [consume] at hg
      simp only [List.mem_singleton] at hg
      exact ⟨lp, hg ▸ hpano⟩
    · intro t ht
      rw [consume] at ht
      exact hpano t ht
    · rw [consume]
      simp
  | cons pm rest ih =>
    intro cur lp hcur hpano
    rw [consume]
    have hx : (withErr gd pm).2.1.pano_id = pm.2.pano_id := rfl
    by_cases hne : lp ≠ pm.2.pano_id
    · rw [if_pos hne]
      obtain ⟨ihj, ihne, ihsame, ihhead, ihchain⟩ :=
        ih [withErr gd pm] pm.2.pano_id (by simp) (by intro t ht; simp at ht; rw [ht]; exact hx)
      refine ⟨?_, ?_, ?_, ?_, ?_⟩
      · rw [List.flatten_cons, ihj, List.map_cons]
        rfl
      · intro g hg
        rcases List.mem_cons.1 hg with hg | hg
        · rw [hg]; exact hcur
        · exact ihne g hg
      · intro g hg
        rcases List.mem_cons.1 hg with hg | hg
        · exact ⟨lp, hg ▸ hpano⟩
        · exact ihsame g hg
      · intro t ht
        simp only [List.headD_cons] at ht
        exact hpano t ht
      · rw [List.chain'_cons']
        constructor
        · intro y hy
          intro a ha b hb
          have hyhead : (consume gd [withErr gd pm] pm.2.pano_id rest).headD [] = y := by
            rw [List.headD_eq_head?_getD, Option.mem_def.1 hy]
            rfl
          have hbp : b.2.1.pano_id = pm.2.pano_id := ihhead b (by rw [hyhead]; exact hb)
          have hap : a.2.1.pano_id = lp := hpano a ha
          rw [hap, hbp]
          exact hne
        · exact ihchain
    · rw [if_neg hne]
      push_neg at hne
      have hpano' : ∀ t ∈ cur ++ [withErr gd pm], t.2.1.pano_id = pm.2.pano_id := by
        intro t ht
        rcases List.mem_append.1 ht with ht | ht
        · rw [hpano t ht, hne]
        · simp only [List.mem_singleton] at ht
          rw [ht]
          exact hx
      obtain ⟨ihj, ihne, ihsame, ihhead, ihchain⟩ :=
        ih (cur ++ [withErr gd pm]) pm.2.pano_id (by simp) hpano'
      refine ⟨?_, ihne, ihsame, ?_, ihchain⟩
      · rw [ihj, List.map_cons, List.append_assoc]
        rfl
      · intro t ht
        rw [hne]
        exact ihhead t ht

theorem chunkOk_spec (gd : Point → Point → ℚ) (l : List (PointBearing × GSVMetadata))
    (hne : l ≠ []) :
    (chunkOk gd l).flatten = l.map (withErr gd) ∧
    (∀ g ∈ chunkOk gd l, g ≠ []) ∧
    (∀ g ∈ chunkOk gd l, ∃ p, ∀ t ∈ g, t.2.1.pano_id = p) ∧
    List.Chain' (fun g g' => ∀ a ∈ g, ∀ b ∈ g', a.2.1.pano_id ≠ b.2.1.pano_id)
      (chunkOk gd l) := by
  match l with
  | pm :: rest =>
    rw [chunkOk]
    obtain ⟨ihj, ihne, ihsame, -, ihchain⟩ :=
      consume_spec gd rest [withErr gd pm] pm.2.pano_id (by simp)
        (by intro t ht; simp at ht; rw [ht]; rfl)
    exact ⟨by rw [ihj, List.map_cons]; rfl, ihne, ihsame, ihchain⟩

theorem join_length_le (G : List (List α)) (h : ∀ g ∈ G, g ≠ []) :
    G.length ≤ G.flatten.length := by
  induction G with
  | nil => simp
  | cons g gs ih =>
    rw [List.flatten_cons, List.length_cons, List.length_append]
    have hg : 1 ≤ g.length := by
      have := h g (by simp)
      cases g with
      | nil => exact absurd rfl this
      | cons a as => simp
    have := ih fun g hg => h g (List.mem_cons_of_mem _ hg)
    omega

theorem minGroups_some (gs : List (List (PointBearing × GSVMetadata × ℚ)))
    (bs : List (PointBearing × GSVMetadata × ℚ)) (h : minGroups gs = some bs) :
    bs.length = gs.length ∧
    ∀ i, i < gs.length →
      minByKey (fun t => t.2.2) (gs.getD i []) = some (bs.getD i default) := by
  induction gs generalizing bs with
  | nil =>
    rw [minGroups] at h
    have : bs = [] := (Option.some_injective _ h).symm
    subst this
    exact ⟨rfl, by intro i hi; simp at hi⟩
  | cons g rest ih =>
    rw [minGroups] at h
    match hm : minByKey (fun t : PointBearing × GSVMetadata × ℚ => t.2.2) g,
        hrest : minGroups rest with
    | some m, some ms =>
      rw [hm, hrest] at h
      have hbs : bs = m :: ms := (Option.some_injective _ h).symm
      subst hbs
      obtain ⟨ihlen, ihmin⟩ := ih ms hrest
      refine ⟨by simp [ihlen], ?_⟩
      intro i hi
      match i with
      | 0 => simpa using hm
      | i + 1 =>
        simp only [List.getD_cons_succ]
        exact ihmin i (by simpa using hi)
    | some m, none => rw [hm, hrest] at h; exact Option.noConfusion h
    | none, some ms => rw [hm, hrest] at h; exact Option.noConfusion h
    | none, none => rw [hm, hrest] at h; exact Option.noConfusion h

theorem minGroups_isSome_of_ne_nil (gs : List (List (PointBearing × GSVMetadata × ℚ)))
    (h : ∀ g ∈ gs, g ≠ []) : (minGroups gs).isSome := by
  induction gs with
  | nil => rfl
  | cons g rest ih =>
    rw [minGroups]
    have hg := h g (by simp)
    have hm : (minByKey (fun t : PointBearing × GSVMetadata × ℚ => t.2.2) g).isSome :=
      (minByKey_isSome_iff _ g).2 hg
    have hrest := ih fun g hg => h g (List.mem_cons_of_mem _ hg)
    obtain ⟨m, hm⟩ := Option.isSome_iff_exists.1 hm
    obtain ⟨ms, hms⟩ := Option.isSome_iff_exists.1 hrest
    rw [hm, hms]
    rfl

/-- C4: only `status == "OK"` records participate (`okPairs` filters the zip),
and the walk groups by adjacency: the groups are exactly the maximal runs of
equal pano ids — their concatenation restores the filtered input in order,
every group is non-empty with one constant pano id, and adjacent groups carry
different pano ids, so identical consecutive identifiers merge while a
reappearance of an identifier after an interruption starts a new group. -/
theorem C4_adjacency_grouping (gd : Point → Point → ℚ) (pbs : List PointBearing)
    (ms : List GSVMetadata) (hne : okPairs pbs ms ≠ []) :
    buildGroups gd (okPairs pbs ms) = chunkOk gd (okPairs pbs ms) ∧
    (chunkOk gd (okPairs pbs ms)).flatten = (okPairs pbs ms).map (withErr gd) ∧
    (∀ g ∈ chunkOk gd (okPairs pbs ms), g ≠ []) ∧
    (∀ g ∈ chunkOk gd (okPairs pbs ms), ∃ p, ∀ t ∈ g, t.2.1.pano_id = p) ∧
    List.Chain' (fun g g' => ∀ a ∈ g, ∀ b ∈ g', a.2.1.pano_id ≠ b.2.1.pano_id)
      (chunkOk gd (okPairs pbs ms)) := by
  obtain ⟨h1, h2, h3, h4⟩ := chunkOk_spec gd _ hne
  exact ⟨buildGroups_eq_chunkOk gd _ hne, h1, h2, h3, h4⟩

/-- Witness for C4 at a concrete input whose pano ids (after dropping the one
non-OK record) are `A, A, B, A`: the two leading `A`s merge, and the trailing
`A` — a reappearance after the interruption `B` — opens a third group. -/
theorem C4_adjacency_grouping_witness :
    okPairs
        [⟨⟨0, 0⟩, 0⟩, ⟨⟨1, 0⟩, 0⟩, ⟨⟨2, 0⟩, 0⟩, ⟨⟨3, 0⟩, 0⟩, ⟨⟨4, 0⟩, 0⟩]
        [⟨"", ⟨0, 0⟩, "A", "OK"⟩, ⟨"", ⟨1, 0⟩, "A", "OK"⟩,
         ⟨"", ⟨2, 0⟩, "C", "ZERO_RESULTS"⟩, ⟨"", ⟨3, 0⟩, "B", "OK"⟩,
         ⟨"", ⟨4, 0⟩, "A", "OK"⟩] ≠ [] ∧
    buildGroups (fun _ _ => 0)
        (okPairs
          [⟨⟨0, 0⟩, 0⟩, ⟨⟨1, 0⟩, 0⟩, ⟨⟨2, 0⟩, 0⟩, ⟨⟨3, 0⟩, 0⟩, ⟨⟨4, 0⟩, 0⟩]
          [⟨"", ⟨0, 0⟩, "A", "OK"⟩, ⟨"", ⟨1, 0⟩, "A", "OK"⟩,
           ⟨"", ⟨2, 0⟩, "C", "ZERO_RESULTS"⟩, ⟨"", ⟨3, 0⟩, "B", "OK"⟩,
           ⟨"", ⟨4, 0⟩, "A", "OK"⟩]) =
      chunkOk (fun _ _ => 0)
        (okPairs
          [⟨⟨0, 0⟩, 0⟩, ⟨⟨1, 0⟩, 0⟩, ⟨⟨2, 0⟩, 0⟩, ⟨⟨3, 0⟩, 0⟩, ⟨⟨4, 0⟩, 0⟩]
          [⟨"", ⟨0, 0⟩, "A", "OK"⟩, ⟨"", ⟨1, 0⟩, "A", "OK"⟩,
           ⟨"", ⟨2, 0⟩, "C", "ZERO_RESULTS"⟩, ⟨"", ⟨3, 0⟩, "B", "OK"⟩,
           ⟨"", ⟨4, 0⟩, "A", "OK"⟩]) ∧
    (chunkOk (fun _ _ => 0)
        (okPairs
          [⟨⟨0, 0⟩, 0⟩, ⟨⟨1, 0⟩, 0⟩, ⟨⟨2, 0⟩, 0⟩, ⟨⟨3, 0⟩, 0⟩, ⟨⟨4, 0⟩, 0⟩]
          [⟨"", ⟨0, 0⟩, "A", "OK"⟩, ⟨"", ⟨1, 0⟩, "A", "OK"⟩,
           ⟨"", ⟨2, 0⟩, "C", "ZERO_RESULTS"⟩, ⟨"", ⟨3, 0⟩, "B", "OK"⟩,
           ⟨"", ⟨4, 0⟩, "A", "OK"⟩])).length = 3 :=
  ⟨by decide,
   (C4_adjacency_grouping (fun _ _ => 0) _ _ (by decide)).1,
   by decide⟩

theorem zip_eq_zip_take (pbs : List α) (ms : List β) :
    pbs.zip ms = (pbs.take ms.length).zip (ms.take pbs.length) := by
  induction pbs generalizing ms with
  | nil => simp
  | cons p pbs ih =>
    cases ms with
    | nil => simp
    | cons m ms =>
      simp only [List.zip_cons_cons, List.length_cons, List.take_succ_cons]
      rw [ih ms]

theorem buildGroups_nil (gd : Point → Point → ℚ) : buildGroups gd [] = [[]] := rfl

/-- The claim C7 as stated is false on the code: `group_by_location` never
compares the two input lengths — Rust's `zip` silently truncates to the
shorter sequence.  Here a 2-viewpoint / 1-metadata input (lengths differ)
succeeds instead of failing. -/
theorem C7_counterexample :
    ([⟨⟨0, 0⟩, 0⟩, ⟨⟨1, 0⟩, 0⟩] : List PointBearing).length ≠
      ([⟨"", ⟨5, 6⟩, "A", "OK"⟩] : List GSVMetadata).length ∧
    group_by_location (fun _ _ => 0) [⟨⟨0, 0⟩, 0⟩, ⟨⟨1, 0⟩, 0⟩]
      [⟨"", ⟨5, 6⟩, "A", "OK"⟩] ≠ none := by
  decide

/-- C7 (amended): on inputs of differing lengths `group_by_location` silently
processes the zipped common prefix (no length check is performed), and it
fails — the Rust `unwrap` on an empty group panics — exactly when no zipped
record has `status == "OK"` (the initial group is then empty). -/
theorem C7_dedup_failure_conditions (gd : Point → Point → ℚ) (pbs : List PointBearing)
    (ms : List GSVMetadata) :
    group_by_location gd pbs ms =
      group_by_location gd (pbs.take ms.length) (ms.take pbs.length) ∧
    (group_by_location gd pbs ms = none ↔ okPairs pbs ms = []) := by
  constructor
  · have hok : okPairs pbs ms = okPairs (pbs.take ms.length) (ms.take pbs.length) := by
      rw [okPairs, okPairs, ← zip_eq_zip_take]
    rw [group_by_location, group_by_location, hok]
  · constructor
    · intro hnone
      by_contra hne
      obtain ⟨heq, -, hgne, -, -⟩ := C4_adjacency_grouping gd pbs ms hne
      have hsome := minGroups_isSome_of_ne_nil (buildGroups gd (okPairs pbs ms))
        (by rw [heq]; exact hgne)
      obtain ⟨best, hbest⟩ := Option.isSome_iff_exists.1 hsome
      rw [group_by_location, hbest] at hnone
      exact Option.noConfusion hnone
    · intro hok
      rw [group_by_location, hok, buildGroups_nil]
      rfl

/-- C3: when deduplication succeeds, it keeps exactly one representative per
group (the three outputs have equal lengths, one entry per group), never more
groups than ok-status inputs; each returned error equals `gd` applied to the
representative's requested point and its metadata-corrected point; and each
representative is the stable minimum of its group — its error is strictly
below every earlier member's and at most every later member's. -/
theorem C3_dedup_stable_min (gd : Point → Point → ℚ) (pbs : List PointBearing)
    (ms : List GSVMetadata) (ps : List PointBearing) (ms2 : List GSVMetadata)
    (errs : List ℚ) (h : group_by_location gd pbs ms = some (ps, ms2, errs)) :
    ps.length = errs.length ∧ ms2.length = errs.length ∧
    errs.length ≤ (okPairs pbs ms).length ∧
    ∀ i, i < errs.length →
      errs.getD i 0 = gd (ps.getD i default).point (panoPoint (ms2.getD i default)) ∧
      ∃ l₁ l₂,
        (buildGroups gd (okPairs pbs ms)).getD i [] =
          l₁ ++ (ps.getD i default, ms2.getD i default, errs.getD i 0) :: l₂ ∧
        (∀ y ∈ l₁, errs.getD i 0 < y.2.2) ∧ (∀ y ∈ l₂, errs.getD i 0 ≤ y.2.2) := by
  rw [group_by_location] at h
  match hmin : minGroups (buildGroups gd (okPairs pbs ms)) with
  | none => rw [hmin] at h; exact Option.noConfusion h
  | some best =>
    rw [hmin] at h
    have htrip := Option.some_injective _ h
    have hps : best.map (·.1) = ps := congrArg Prod.fst htrip
    have hms2 : best.map (fun t => t.2.1) = ms2 := congrArg (fun t => t.2.1) htrip
    have herrs : best.map (fun t => t.2.2) = errs := congrArg (fun t => t.2.2) htrip
    have hne : okPairs pbs ms ≠ [] := by
      intro hnil
      rw [hnil, buildGroups_nil] at hmin
      exact Option.noConfusion hmin
    obtain ⟨hchunk, hflat, hgne, -, -⟩ := C4_adjacency_grouping gd pbs ms hne
    obtain ⟨hblen, hbmin⟩ := minGroups_some _ best hmin
    have hglen : (buildGroups gd (okPairs pbs ms)).length ≤ (okPairs pbs ms).length := by
      rw [hchunk]
      have := join_length_le (chunkOk gd (okPairs pbs ms)) hgne
      rw [hflat, List.length_map] at this
      exact this
    have hel : errs.length = best.length := by rw [← herrs, List.length_map]
    refine ⟨by rw [← hps, ← herrs]; simp, by rw [← hms2, ← herrs]; simp, ?_, ?_⟩
    · rw [hel, hblen]
      exact hglen
    · intro i hi
      have hib : i < best.length := by omega
      have hig : i < (buildGroups gd (okPairs pbs ms)).length := by rw [← hblen]; exact hib
      have hmb := hbmin i (by rw [← hblen]; exact hib)
      have hps_i : ps.getD i default = (best.getD i default).1 := by
        rw [← hps, List.getD_eq_getElem _ _ (by rw [List.length_map]; exact hib),
          List.getElem_map, ← List.getD_eq_getElem best default hib]
      have hms2_i : ms2.getD i default = (best.getD i default).2.1 := by
        rw [← hms2, List.getD_eq_getElem _ _ (by rw [List.length_map]; exact hib),
          List.getElem_map, ← List.getD_eq_getElem best default hib]
      have herrs_i : errs.getD i 0 = (best.getD i default).2.2 := by
        rw [← herrs, List.getD_eq_getElem _ _ (by rw [List.length_map]; exact hib),
          List.getElem_map, ← List.getD_eq_getElem best default hib]
      have hmem : best.getD i default ∈ (buildGroups gd (okPairs pbs ms)).getD i [] :=
        minByKey_mem _ _ _ hmb
      have hgmem : (buildGroups gd (okPairs pbs ms)).getD i [] ∈
          buildGroups gd (okPairs pbs ms) := by
        rw [List.getD_eq_getElem _ _ hig]
        exact List.getElem_mem hig
      have hflatmem : best.getD i default ∈ (okPairs pbs ms).map (withErr gd) := by
        rw [← hflat, ← hchunk]
        exact List.mem_flatten.2 ⟨_, hgmem, hmem⟩
      obtain ⟨pm, hpm, hwe⟩ := List.mem_map.1 hflatmem
      have herr_eq : (best.getD i default).2.2 =
          gd (best.getD i default).1.point (panoPoint (best.getD i default).2.1) := by
        rw [← hwe]
        rfl
      constructor
      · rw [herrs_i, hps_i, hms2_i]
        exact herr_eq
      · obtain ⟨l₁, l₂, hdec, h₁, h₂⟩ := minByKey_decomp _ _ _ hmb
        refine ⟨l₁, l₂, ?_, ?_, ?_⟩
        · rw [hdec, hps_i, hms2_i, herrs_i]
        · intro y hy
          rw [herrs_i]
          exact h₁ y hy
        · intro y hy
          rw [herrs_i]
          exact h₂ y hy

/-- Witness for C3 at a concrete input: two viewpoints resolving to the same
pano; under the (lookup-style) distance the second has the smaller error, so
the single group's representative is the second pair. -/
theorem C3_dedup_stable_min_witness :
    (([⟨⟨4, 0⟩, 0⟩] : List PointBearing).length = ([4] : List ℚ).length ∧
      ([⟨"", ⟨0, 6⟩, "A", "OK"⟩] : List GSVMetadata).length = ([4] : List ℚ).length ∧
      ([4] : List ℚ).length ≤
        (okPairs [⟨⟨0, 0⟩, 0⟩, ⟨⟨4, 0⟩, 0⟩]
          [⟨"", ⟨0, 6⟩, "A", "OK"⟩, ⟨"", ⟨0, 6⟩, "A", "OK"⟩]).length ∧
      ∀ i, i < ([4] : List ℚ).length →
        ([4] : List ℚ).getD i 0 =
          (fun a _ : Point => if a.x = 0 then (6 : ℚ) else 4)
            (([⟨⟨4, 0⟩, 0⟩] : List PointBearing).getD i default).point
            (panoPoint (([⟨"", ⟨0, 6⟩, "A", "OK"⟩] : List GSVMetadata).getD i default)) ∧
        ∃ l₁ l₂,
          (buildGroups (fun a _ : Point => if a.x = 0 then (6 : ℚ) else 4)
              (okPairs [⟨⟨0, 0⟩, 0⟩, ⟨⟨4, 0⟩, 0⟩]
                [⟨"", ⟨0, 6⟩, "A", "OK"⟩, ⟨"", ⟨0, 6⟩, "A", "OK"⟩])).getD i [] =
            l₁ ++ (([⟨⟨4, 0⟩, 0⟩] : List PointBearing).getD i default,
              ([⟨"", ⟨0, 6⟩, "A", "OK"⟩] : List GSVMetadata).getD i default,
              ([4] : List ℚ).getD i 0) :: l₂ ∧
          (∀ y ∈ l₁, ([4] : List ℚ).getD i 0 < y.2.2) ∧
          (∀ y ∈ l₂, ([4] : List ℚ).getD i 0 ≤ y.2.2)) :=
  C3_dedup_stable_min (fun a _ : Point => if a.x = 0 then (6 : ℚ) else 4)
    [⟨⟨0, 0⟩, 0⟩, ⟨⟨4, 0⟩, 0⟩]
    [⟨"", ⟨0, 6⟩, "A", "OK"⟩, ⟨"", ⟨0, 6⟩, "A", "OK"⟩]
    [⟨⟨4, 0⟩, 0⟩] [⟨"", ⟨0, 6⟩, "A", "OK"⟩] [4] (by decide)


/-! ## `src/main.rs` lines 375-392: `interp_points` -/

/-- Modelled from the spec: the `geo` crate's `haversine_intermediate_fill`
(GeoMath.interpolate), which is not part of this repository.  Per §4.1 it
"produces intermediate points spaced every `step_meters` along the
great-circle path, excluding both endpoints; empty if `step_meters ≥
distance(a,b)`": the intermediate positions are the multiples of `max_dist`
strictly below the distance, i.e. `⌈d / max_dist⌉ - 1` of them, and with
`include_ends` the two endpoints are added.  The haversine position function
`hip` (point at a given traveled distance) stays abstract. -/
def haversine_intermediate_fill (hd : Point → Point → ℚ) (hip : Point → Point → ℚ → Point)
    (p1 p2 : Point) (max_dist : ℚ) (include_ends : Bool) : List Point :=
  if hd p1 p2 ≤ max_dist then (if include_ends then [p1, p2] else [])
  else
    if include_ends then
      p1 :: ((List.range (⌈hd p1 p2 / max_dist⌉ - 1).toNat).map
        (fun k => hip p1 p2 ((k + 1 : ℚ) * max_dist)) ++ [p2])
    else
      (List.range (⌈hd p1 p2 / max_dist⌉ - 1).toNat).map
        fun k => hip p1 p2 ((k + 1 : ℚ) * max_dist)

/-- `main.rs` `interp_points` (lines 375-392): a factor below 2 returns the
input unchanged; otherwise each segment is replaced by its
`haversine_intermediate_fill` with step `distance/factor`, endpoints
excluded, concatenated (`flat_map`) in input order. -/
def interp_points (hd : Point → Point → ℚ) (hip : Point → Point → ℚ → Point)
    (points : List Point) (factor : Nat) : List Point :=
  if factor < 2 then points
  else
    ((points.zip points.tail).map fun pp =>
      haversine_intermediate_fill hd hip pp.1 pp.2 (hd pp.1 pp.2 / (factor : ℚ)) false).flatten

theorem fill_div_factor (hd : Point → Point → ℚ) (hip : Point → Point → ℚ → Point)
    (p1 p2 : Point) (factor : Nat) (hpos : 0 < hd p1 p2) (hf : 2 ≤ factor) :
    haversine_intermediate_fill hd hip p1 p2 (hd p1 p2 / (factor : ℚ)) false =
      (List.range (factor - 1)).map
        fun k => hip p1 p2 ((k + 1 : ℚ) * (hd p1 p2 / (factor : ℚ))) := by
  rw [haversine_intermediate_fill]
  have hfq : (1 : ℚ) < (factor : ℚ) := by
    have : 1 < factor := by omega
    exact_mod_cast this
  have hstep : hd p1 p2 / (factor : ℚ) < hd p1 p2 := div_lt_self hpos hfq
  rw [if_neg (not_le.2 hstep)]
  have hdd : hd p1 p2 / (hd p1 p2 / (factor : ℚ)) = (factor : ℚ) := by
    rw [div_div_eq_mul_div, mul_comm, mul_div_assoc, div_self (ne_of_gt hpos), mul_one]
  rw [hdd, Int.ceil_natCast]
  have htn : ((factor : ℤ) - 1).toNat = factor - 1 := by omega
  rw [htn]
  rfl

/-- The claim C5 as stated is false: a segment is replaced by
`interp_factor − 1` intermediate points, not `interp_factor` — with
distance 6 and factor 2 the fill holds one single midpoint, and the whole
interpolation of the two-point track has length 1, not 2. -/
theorem C5_counterexample :
    (haversine_intermediate_fill (fun _ _ => (6 : ℚ)) (fun _ _ _ => ⟨9, 9⟩) ⟨0, 0⟩ ⟨1, 0⟩
        ((6 : ℚ) / ((2 : Nat) : ℚ)) false).length = 1 ∧
    (interp_points (fun _ _ => (6 : ℚ)) (fun _ _ _ => ⟨9, 9⟩) [⟨0, 0⟩, ⟨1, 0⟩] 2).length = 1 ∧
    (1 : Nat) ≠ 2 := by
  have hfill := fill_div_factor (fun _ _ => (6 : ℚ)) (fun _ _ _ => (⟨9, 9⟩ : Point))
    (⟨0, 0⟩ : Point) (⟨1, 0⟩ : Point) 2 (by norm_num) (by omega)
  refine ⟨?_, ?_, by omega⟩
  · rw [hfill]
    rfl
  · rw [interp_points, if_neg (by omega)]
    have hzip : (([⟨0, 0⟩, ⟨1, 0⟩] : List Point).zip ([⟨0, 0⟩, ⟨1, 0⟩] : List Point).tail) =
        [(⟨0, 0⟩, ⟨1, 0⟩)] := rfl
    rw [hzip, List.map_cons, List.map_nil, List.flatten_cons, List.flatten_nil,
      List.append_nil]
    rw [hfill]
    rfl

/-- C5 (amended): `interp_points` with factor below 2 returns the input
unchanged (policy, not error); with factor ≥ 2 it replaces each original
segment by its haversine fill with step `distance(p1,p2)/factor`
(concatenated in input order, endpoints excluded), and on every segment of
positive distance that fill consists of the `factor − 1` evenly spaced
points at `step, 2·step, …` — one fewer than the claim's
`interp_factor`. -/
theorem C5_interp_points (hd : Point → Point → ℚ) (hip : Point → Point → ℚ → Point)
    (points : List Point) (factor : Nat) :
    (factor < 2 → interp_points hd hip points factor = points) ∧
    (2 ≤ factor →
      interp_points hd hip points factor =
        ((points.zip points.tail).map fun pp =>
          haversine_intermediate_fill hd hip pp.1 pp.2 (hd pp.1 pp.2 / (factor : ℚ))
            false).flatten ∧
      ∀ pp ∈ points.zip points.tail, 0 < hd pp.1 pp.2 →
        haversine_intermediate_fill hd hip pp.1 pp.2 (hd pp.1 pp.2 / (factor : ℚ)) false =
          (List.range (factor - 1)).map
            fun k => hip pp.1 pp.2 ((k + 1 : ℚ) * (hd pp.1 pp.2 / (factor : ℚ)))) := by
  constructor
  · intro hlt
    rw [interp_points, if_pos hlt]
  · intro hge
    constructor
    · rw [interp_points, if_neg (by omega)]
    · intro pp _ hpos
      exact fill_div_factor hd hip pp.1 pp.2 factor hpos hge

/-- Witness for C5 (amended) at factor 3 and a constant distance 6: the
input is unchanged at factor 1, and each segment's fill is the two points at
steps 2 and 4. -/
theorem C5_interp_points_witness :
    interp_points (fun _ _ => (6 : ℚ)) (fun _ _ q => ⟨q, 0⟩) [⟨0, 0⟩, ⟨1, 0⟩] 1 =
      [⟨0, 0⟩, ⟨1, 0⟩] ∧
    interp_points (fun _ _ => (6 : ℚ)) (fun _ _ q => ⟨q, 0⟩) [⟨0, 0⟩, ⟨1, 0⟩] 3 =
      ((([⟨0, 0⟩, ⟨1, 0⟩] : List Point).zip ([⟨0, 0⟩, ⟨1, 0⟩] : List Point).tail).map fun pp =>
        haversine_intermediate_fill (fun _ _ => (6 : ℚ)) (fun _ _ q => ⟨q, 0⟩) pp.1 pp.2
          ((6 : ℚ) / ((3 : Nat) : ℚ)) false).flatten ∧
    haversine_intermediate_fill (fun _ _ => (6 : ℚ)) (fun _ _ q => ⟨q, 0⟩) ⟨0, 0⟩ ⟨1, 0⟩
        ((6 : ℚ) / ((3 : Nat) : ℚ)) false =
      (List.range 2).map
        fun k => (fun _ _ q => (⟨q, 0⟩ : Point)) (⟨0, 0⟩ : Point) (⟨1, 0⟩ : Point)
          ((k + 1 : ℚ) * ((6 : ℚ) / ((3 : Nat) : ℚ))) :=
  ⟨(C5_interp_points (fun _ _ => (6 : ℚ)) (fun _ _ q => ⟨q, 0⟩) [⟨0, 0⟩, ⟨1, 0⟩] 1).1
    (by omega),
   ((C5_interp_points (fun _ _ => (6 : ℚ)) (fun _ _ q => ⟨q, 0⟩) [⟨0, 0⟩, ⟨1, 0⟩] 3).2
    (by omega)).1,
   ((C5_interp_points (fun _ _ => (6 : ℚ)) (fun _ _ q => ⟨q, 0⟩) [⟨0, 0⟩, ⟨1, 0⟩] 3).2
    (by omega)).2 (⟨0, 0⟩, ⟨1, 0⟩) (by simp) (by norm_num)⟩

/-! ## `src/main.rs` lines 116-123 and 547-564: the persisted metadata result -/

/-- `main.rs` lines 116-123: `MetadataResult { distance, frames, gpsPoints,
originalPoints, averageError }`.  Note: `gpsPoints` is a list of `GSVPoint`
(`{lat, lng}` only — there is no bearing field anywhere in the record). -/
structure MetadataResult where
  distance : ℚ
  frames : Nat
  gpsPoints : List GSVPoint
  originalPoints : List GSVPoint
  averageError : ℚ
deriving DecidableEq

/-- `main.rs` lines 547-564: the record built after deduplication.  The
deduplicated triple is `(points, metadata, errs)`; `points` — the oriented
viewpoints carrying the bearings — is *not read*: `gpsPoints` are the
metadata-corrected locations, `frames` their count, and `averageError` the
mean positional error. -/
def mkMetadataResult (distances : List ℚ)
    (dedup : List PointBearing × List GSVMetadata × List ℚ)
    (original_points : List Point) : MetadataResult :=
  { distance := distances.sum
    frames := (dedup.2.1.map fun d => d.location).length
    gpsPoints := dedup.2.1.map fun d => d.location
    originalPoints := original_points.map fun p => ⟨p.lat, p.lng⟩
    averageError := dedup.2.2.sum / (dedup.2.2.length : ℚ) }

/-- A JSON value model (numbers, arrays, objects — the shapes serde emits for
this record). -/
inductive Json where
  | num : ℚ → Json
  | arr : List Json → Json
  | obj : List (String × Json) → Json

/-- Serde's serialization of `GSVPoint` (derived `Serialize`). -/
def GSVPoint.toJson (p : GSVPoint) : Json :=
  .obj [("lat", .num p.lat), ("lng", .num p.lng)]

/-- Serde's serialization of `MetadataResult` (derived `Serialize`,
`main.rs` lines 116-123), with the field names as written in the struct. -/
def MetadataResult.toJson (m : MetadataResult) : Json :=
  .obj [("distance", .num m.distance), ("frames", .num (m.frames : ℚ)),
        ("gpsPoints", .arr (m.gpsPoints.map GSVPoint.toJson)),
        ("originalPoints", .arr (m.originalPoints.map GSVPoint.toJson)),
        ("averageError", .num m.averageError)]

/-- Modelled from the spec: deserialization of a `GSVPoint` (the Rust record
`MetadataResult` derives only `Serialize`; the spec's round-trip requirement
presumes the inverse, looked up by field name as serde does). -/
def GSVPoint.fromJson : Json → Option GSVPoint
  | .obj fields =>
    match fields.lookup "lat", fields.lookup "lng" with
    | some (.num lat), some (.num lng) => some ⟨lat, lng⟩
    | _, _ => none
  | _ => none

/-- Modelled from the spec: element-wise deserialization of a point array
(failing if any element fails). -/
def decodePoints : List Json → Option (List GSVPoint)
  | [] => some []
  | j :: js =>
    match GSVPoint.fromJson j, decodePoints js with
    | some p, some ps => some (p :: ps)
    | _, _ => none

/-- Modelled from the spec: deserialization of a `MetadataResult` by field
name, requiring `frames` to be a non-negative integer. -/
def MetadataResult.fromJson : Json → Option MetadataResult
  | .obj fields =>
    match fields.lookup "distance", fields.lookup "frames", fields.lookup "gpsPoints",
        fields.lookup "originalPoints", fields.lookup "averageError" with
    | some (.num d), some (.num fr), some (.arr gps), some (.arr orig), some (.num ae) =>
      if fr.den = 1 ∧ 0 ≤ fr.num then
        match decodePoints gps, decodePoints orig with
        | some gdata, some odata => some ⟨d, fr.num.toNat, gdata, odata, ae⟩
        | _, _ => none
      else none
    | _, _, _, _, _ => none
  | _ => none

/-- The claim C9 as stated is false: the persisted record does not contain
the viewpoints' bearings (its `gpsPoints` are bare `{lat,lng}` pairs taken
from the metadata), so two pipeline states whose deduplicated viewpoints
differ only in bearing persist to the *same* record — no round trip can
reproduce the oriented viewpoints. -/
theorem C9_counterexample :
    mkMetadataResult [1] ([⟨⟨0, 0⟩, 0⟩], [⟨"", ⟨5, 6⟩, "A", "OK"⟩], [2]) [] =
      mkMetadataResult [1] ([⟨⟨0, 0⟩, 90⟩], [⟨"", ⟨5, 6⟩, "A", "OK"⟩], [2]) [] ∧
    ([⟨⟨0, 0⟩, 0⟩] : List PointBearing) ≠ [⟨⟨0, 0⟩, 90⟩] :=
  ⟨rfl, by decide⟩

theorem decodePoints_roundtrip (l : List GSVPoint) :
    decodePoints (l.map GSVPoint.toJson) = some l := by
  induction l with
  | nil => rfl
  | cons p ps ih =>
    rw [List.map_cons, decodePoints]
    have hp : GSVPoint.fromJson (GSVPoint.toJson p) = some p := rfl
    rw [hp, ih]

/-- C9 (amended): the persisted record holds the metadata-corrected locations
and the original points as `{lat,lng}` pairs (plus distance, frame count and
average error) — but no bearings; serializing it and deserializing (the
deserializer is modelled from the spec, the Rust struct derives only
`Serialize`) reproduces the record, and hence the stored point lists,
exactly. -/
theorem C9_metadata_roundtrip (m : MetadataResult) :
    MetadataResult.fromJson (MetadataResult.toJson m) = some m := by
  show (if (m.frames : ℚ).den = 1 ∧ 0 ≤ (m.frames : ℚ).num then
      match decodePoints (m.gpsPoints.map GSVPoint.toJson),
          decodePoints (m.originalPoints.map GSVPoint.toJson) with
      | some gdata, some odata =>
        some ⟨m.distance, (m.frames : ℚ).num.toNat, gdata, odata, m.averageError⟩
      | _, _ => none
    else none) = some m
  have hfr : ((m.frames : ℚ).den = 1 ∧ 0 ≤ (m.frames : ℚ).num) := by
    constructor
    · exact Rat.den_natCast m.frames
    · rw [Rat.num_natCast]
      exact Int.ofNat_nonneg m.frames
  rw [if_pos hfr]
  rw [decodePoints_roundtrip, decodePoints_roundtrip]
  have hnum : (m.frames : ℚ).num.toNat = m.frames := by
    rw [Rat.num_natCast]
    exact Int.toNat_natCast m.frames
  rw [hnum]

end Streetwarp
